import Mathlib

/-!
Verification development for a set-associative TLB simulator
(`tlb_sim.py`): a per-set LRU translation cache, a locality-biased
trace generator, and a simulation driver computing hit rate and EMAT.

The definitions below are a shallow embedding of the Python source:
pure data (lists of naturals) stands for the deques of VPNs, explicit
state passing stands for mutation, and `Except` stands for exceptions
raised during construction.  Configuration parameters are naturals,
matching the data model (counts and non-negative VPNs); the standard
library pseudo-random generator is modelled by a deterministic linear
congruential stream exposing the same interface (`seed`, `random`,
`randrange`, `randint`), which is the level of detail the properties
here depend on (seeded determinism and the ranges of drawn values).
-/

/-- A set-associative TLB: `buckets` holds one MRU-front, LRU-back
ordered list of resident VPNs per set, `mask = sets - 1` is the
precomputed index bitmask.  Embeds class `SetAssociativeTLB`. -/
structure SetAssociativeTLB where
  sets : Nat
  ways : Nat
  buckets : List (List Nat)
  mask : Nat
deriving Repr, DecidableEq

namespace SetAssociativeTLB

/-- Constructor with its two `assert` guards: `sets` and `ways`
positive, and `sets & (sets - 1) == 0` (power of two).  A failed
guard is a construction-time error carrying the assertion message. -/
def mk? (sets ways : Nat) : Except String SetAssociativeTLB :=
  if 0 < sets ∧ 0 < ways then
    let mask := sets - 1
    if sets &&& mask = 0 then
      Except.ok { sets := sets, ways := ways,
                  buckets := List.replicate sets [], mask := mask }
    else
      Except.error "sets debe ser potencia de 2 (ej. 8,16,32,64,128)"
  else
    Except.error "assert sets > 0 and ways > 0"

/-- `_index(vpn) = vpn & mask`. -/
def index (t : SetAssociativeTLB) (vpn : Nat) : Nat :=
  vpn &&& t.mask

/-- `access(vpn)`: on a hit (vpn found in its set) the entry is
removed and pushed back at the MRU front and the call returns true;
on a miss, if the set is at capacity the LRU back entry is popped,
then vpn is pushed at the front and the call returns false. -/
def access (t : SetAssociativeTLB) (vpn : Nat) : Bool × SetAssociativeTLB :=
  let idx := t.index vpn
  let bucket := t.buckets.getD idx []
  if vpn ∈ bucket then
    (true, { t with buckets := t.buckets.set idx (vpn :: bucket.erase vpn) })
  else
    let bucket' := if t.ways ≤ bucket.length then bucket.dropLast else bucket
    (false, { t with buckets := t.buckets.set idx (vpn :: bucket') })

/-- Sequential accesses, collecting the hit/miss result of each. -/
def accessList (t : SetAssociativeTLB) : List Nat → List Bool × SetAssociativeTLB
  | [] => ([], t)
  | v :: vs =>
    let (hit, t') := t.access v
    let (hits, t'') := t'.accessList vs
    (hit :: hits, t'')

end SetAssociativeTLB

/-- Structural invariant of a TLB state: every set holds at most
`ways` entries and no VPN occurs twice in the same set. -/
def GoodBuckets (t : SetAssociativeTLB) : Prop :=
  ∀ b ∈ t.buckets, b.length ≤ t.ways ∧ b.Nodup

instance (t : SetAssociativeTLB) : Decidable (GoodBuckets t) := by
  unfold GoodBuckets; infer_instance

/-! ### Pseudo-random stream

Model of the seeded generator used by `generate_trace`.  The state is
a single word advanced by a linear congruential step; `seedRand`
reinitialises the state from the seed exactly as `random.seed` makes
the subsequent stream a function of the seed alone. -/

/-- Modulus of the modelled generator state (31-bit words). -/
def rngMod : Nat := 2 ^ 31

/-- One linear congruential step of the modelled generator. -/
def lcgNext (s : Nat) : Nat := (1103515245 * s + 12345) % rngMod

/-- Generator state. -/
structure PyRand where
  state : Nat
deriving Repr, DecidableEq

/-- `random.seed(seed)`: the state becomes a function of `seed` alone,
independent of the previous state. -/
def seedRand (seed : Nat) : PyRand := ⟨lcgNext (seed % rngMod)⟩

/-- Draw one raw word and advance the state. -/
def nextRaw (g : PyRand) : Nat × PyRand := (g.state % rngMod, ⟨lcgNext g.state⟩)

/-- `random.random()`: a fraction in `[0, 1)`. -/
def randomFrac (g : PyRand) : ℚ × PyRand :=
  let (r, g') := nextRaw g
  ((r : ℚ) / (rngMod : ℚ), g')

/-- `random.randrange(n)`: a value in `[0, n)` (for `n > 0`). -/
def randrange (n : Nat) (g : PyRand) : Nat × PyRand :=
  let (r, g') := nextRaw g
  (r % n, g')

/-- `random.randint(lo, hi)`: a value in `[lo, hi]`, both ends
included (for `lo ≤ hi`). -/
def randint (lo hi : Int) (g : PyRand) : Int × PyRand :=
  let (r, g') := nextRaw g
  (lo + ((r % (hi - lo + 1).toNat : Nat) : Int), g')

/-- Loop body of `generate_trace`: `n` remaining steps, `current`
locality center.  Each step draws a fraction; below `locality_prob`
it emits `(current + delta) mod vpages` with
`delta = randint(-locality_window // 2, locality_window // 2)`
(Python floor division, hence `Int.fdiv`) and keeps `current`;
otherwise it jumps to a fresh uniform VPN which becomes the new
center.  An offset in `[0, page_size)` is drawn either way. -/
def generateTraceAux (vpages page_size : Nat) (locality_prob : ℚ)
    (locality_window : Nat) : Nat → Nat → PyRand → List (Nat × Nat)
  | 0, _, _ => []
  | n + 1, current, g =>
    let (f, g1) := randomFrac g
    if f < locality_prob then
      let (delta, g2) := randint (Int.fdiv (-(locality_window : Int)) 2)
        (Int.fdiv (locality_window : Int) 2) g1
      let vpn := (((current : Int) + delta) % (vpages : Int)).toNat
      let (off, g3) := randrange page_size g2
      (vpn, off) ::
        generateTraceAux vpages page_size locality_prob locality_window n current g3
    else
      let (vpn, g2) := randrange vpages g1
      let (off, g3) := randrange page_size g2
      (vpn, off) ::
        generateTraceAux vpages page_size locality_prob locality_window n vpn g3

/-- `generate_trace`: reseeds the generator (discarding the incoming
state `g0`), draws the initial locality center uniformly, then emits
`n_accesses` pairs `(vpn, offset)`. -/
def generateTrace (g0 : PyRand) (n_accesses vpages page_size : Nat)
    (locality_prob : ℚ) (locality_window : Nat) (seed : Nat) : List (Nat × Nat) :=
  let _ := g0
  let g := seedRand seed
  let (current, g1) := randrange vpages g
  generateTraceAux vpages page_size locality_prob locality_window n_accesses current g1

/-! ### Simulation driver -/

/-- The full parameter record of `run_tlb_sim` (and the `params` copy
stored in its result). -/
structure SimParams where
  sets : Nat
  ways : Nat
  vpages : Nat
  page_size : Nat
  n_accesses : Nat
  locality_prob : ℚ
  locality_window : Nat
  t_tlb : Nat
  t_mem : Nat
  t_pagewalk : Nat
  seed : Nat
deriving Repr, DecidableEq

/-- The result record returned by `run_tlb_sim`. -/
structure SimResult where
  accesses : Nat
  hits : Nat
  misses : Nat
  hit_rate : ℚ
  EMAT : ℚ
  params : SimParams
deriving Repr, DecidableEq

/-- The per-reference loop of `run_tlb_sim`: walks the trace with the
1-based counter `i`, accumulating `hits` and `total_time`, and - when
`show_progress` is set and `i` is a checkpoint (`i % step == 0` or the
final step) - appending a `(pct, filled)` progress event to `out`
(`pct = i*100/accesses`, `filled = 40*pct/100`, the integer parts the
progress bar prints). -/
def simLoop (t_tlb t_mem t_pagewalk : Nat) (show_progress : Bool)
    (accesses step : Nat) :
    List (Nat × Nat) → SetAssociativeTLB → Nat → Nat → Nat → List (Nat × Nat) →
      Nat × Nat × SetAssociativeTLB × List (Nat × Nat)
  | [], _tlb, hits, total_time, _i, out => (hits, total_time, _tlb, out)
  | (vpn, _) :: rest, tlb, hits, total_time, i, out =>
    let (hit, tlb') := tlb.access vpn
    let hits' := if hit then hits + 1 else hits
    let total' := if hit then total_time + (t_tlb + t_mem)
      else total_time + (t_tlb + t_pagewalk + t_mem)
    let out' := if show_progress && (i % step = 0 ∨ i = accesses : Bool) then
        let pct := i * 100 / accesses
        out ++ [(pct, 40 * pct / 100)]
      else out
    simLoop t_tlb t_mem t_pagewalk show_progress accesses step rest tlb' hits' total' (i + 1) out'

/-- `run_tlb_sim`: builds a fresh TLB (propagating a construction
failure), generates the trace from the seed, runs the loop starting
from zero counters, and packages the result record together with the
emitted progress events. -/
def run_tlb_sim (g0 : PyRand) (p : SimParams) (show_progress : Bool) :
    Except String (SimResult × List (Nat × Nat)) :=
  match SetAssociativeTLB.mk? p.sets p.ways with
  | Except.error e => Except.error e
  | Except.ok tlb =>
    let trace := generateTrace g0 p.n_accesses p.vpages p.page_size
      p.locality_prob p.locality_window p.seed
    let accesses := trace.length
    let step := max 1 (accesses / 50)
    let (hits, total_time, _, out) :=
      simLoop p.t_tlb p.t_mem p.t_pagewalk show_progress accesses step trace tlb 0 0 1 []
    Except.ok ({ accesses := accesses, hits := hits,
                 misses := accesses - hits,
                 hit_rate := (hits : ℚ) / (accesses : ℚ),
                 EMAT := (total_time : ℚ) / (accesses : ℚ),
                 params := p }, out)

/-- Hit rate of a driver invocation, zero on a construction error. -/
def hitRateOf (e : Except String (SimResult × List (Nat × Nat))) : ℚ :=
  match e with
  | Except.ok (r, _) => r.hit_rate
  | Except.error _ => 0

/-- Unbounded MRU recency stack update: push `v` to the front after
removing its earlier occurrence.  A capacity-`w` LRU set is the
`w`-element front of this stack, which is the inclusion argument
behind associativity monotonicity. -/
def mruPush (M : List Nat) (v : Nat) : List Nat := v :: M.erase v

/-- Hit/miss flags of an access sequence computed on the unbounded
recency stacks: a capacity-`w` hit is membership in the `w`-front of
the indexed stack. -/
def hitFlags (w mask : Nat) : List Nat → List (List Nat) → List Bool
  | [], _ => []
  | v :: vs, S =>
    decide (v ∈ (S.getD (v &&& mask) []).take w) ::
      hitFlags w mask vs (S.set (v &&& mask) (mruPush (S.getD (v &&& mask) []) v))

/-! ### Helper lemmas -/

/-- The constructor's bitmask test `sets & (sets - 1) == 0` detects
exactly the powers of two among the positive naturals. -/
theorem and_pred_eq_zero_iff_pow2 (n : Nat) (hn : 0 < n) :
    n &&& (n - 1) = 0 ↔ ∃ k, n = 2 ^ k := by
  constructor
  · intro h
    refine ⟨n.log2, ?_⟩
    by_contra hne
    have h1 : 2 ^ n.log2 ≤ n := Nat.log2_self_le (by omega)
    have h2 : n < 2 ^ n.log2 * 2 := by
      rw [← pow_succ]; exact Nat.lt_log2_self
    have hgt : 2 ^ n.log2 < n := lt_of_le_of_ne h1 fun he => hne he.symm
    have hdiv1 : n / 2 ^ n.log2 = 1 := Nat.div_eq_of_lt_le (by omega) (by omega)
    have hdiv2 : (n - 1) / 2 ^ n.log2 = 1 := Nat.div_eq_of_lt_le (by omega) (by omega)
    have hb1 : n.testBit n.log2 = true := by
      simp [Nat.testBit_to_div_mod, hdiv1]
    have hb2 : (n - 1).testBit n.log2 = true := by
      simp [Nat.testBit_to_div_mod, hdiv2]
    have hz := congrArg (fun m => Nat.testBit m n.log2) h
    simp [Nat.testBit_and, hb1, hb2] at hz
  · rintro ⟨k, rfl⟩
    apply Nat.eq_of_testBit_eq
    intro i
    simp only [Nat.testBit_and, Nat.testBit_two_pow, Nat.testBit_two_pow_sub_one,
      Nat.zero_testBit, Bool.and_eq_false_iff]
    by_cases hk : k = i
    · subst hk; simp
    · simp [hk]

/-- Valid parameters make construction succeed with `sets` empty sets
and the precomputed mask. -/
theorem mk_ok_of_valid (sets ways : Nat) (h1 : 0 < sets) (h2 : 0 < ways)
    (h3 : sets &&& (sets - 1) = 0) :
    SetAssociativeTLB.mk? sets ways =
      Except.ok ⟨sets, ways, List.replicate sets [], sets - 1⟩ := by
  rw [SetAssociativeTLB.mk?, if_pos ⟨h1, h2⟩]
  dsimp only
  rw [if_pos h3]

/-- A successful construction implies the parameters passed both
assertion guards, and determines the initial state completely. -/
theorem mk_ok_inv (sets ways : Nat) (t : SetAssociativeTLB)
    (h : SetAssociativeTLB.mk? sets ways = Except.ok t) :
    0 < sets ∧ 0 < ways ∧ sets &&& (sets - 1) = 0 ∧
      t = ⟨sets, ways, List.replicate sets [], sets - 1⟩ := by
  rw [SetAssociativeTLB.mk?] at h
  by_cases h1 : 0 < sets ∧ 0 < ways
  · rw [if_pos h1] at h
    dsimp only at h
    by_cases h2 : sets &&& (sets - 1) = 0
    · rw [if_pos h2] at h
      cases h
      exact ⟨h1.1, h1.2, h2, rfl⟩
    · rw [if_neg h2] at h
      cases h
  · rw [if_neg h1] at h
    cases h

/-- `access` never changes the configuration fields. -/
theorem access_fields (t : SetAssociativeTLB) (v : Nat) :
    (t.access v).2.ways = t.ways ∧ (t.access v).2.sets = t.sets ∧
      (t.access v).2.mask = t.mask := by
  rw [SetAssociativeTLB.access]
  dsimp only
  split <;> exact ⟨rfl, rfl, rfl⟩

/-- One access preserves the structural invariant (given at least one
way per set). -/
theorem access_preserves_good (t : SetAssociativeTLB) (v : Nat)
    (hw : 1 ≤ t.ways) (h : GoodBuckets t) : GoodBuckets (t.access v).2 := by
  have hbg : (t.buckets.getD (t.index v) []).length ≤ t.ways ∧
      (t.buckets.getD (t.index v) []).Nodup := by
    rcases Nat.lt_or_ge (t.index v) t.buckets.length with hlt | hge
    · have := h (t.buckets.getD (t.index v) []) ?_
      · exact this
      · rw [List.getD_eq_getElem?_getD, List.getElem?_eq_getElem hlt]
        exact List.getElem_mem hlt
    · rw [List.getD_eq_getElem?_getD, List.getElem?_eq_none hge]
      simp
  rw [SetAssociativeTLB.access]
  dsimp only
  split
  · -- hit: the entry is erased and pushed back at the front
    rename_i hv
    intro b hb
    rcases List.mem_or_eq_of_mem_set hb with hmem | rfl
    · exact h b hmem
    · constructor
      · have hvm : v ∈ t.buckets.getD (t.index v) [] := hv
        simp only [List.length_cons, List.length_erase_of_mem hvm]
        have hpos : 1 ≤ (t.buckets.getD (t.index v) []).length :=
          List.length_pos.mpr (List.ne_nil_of_mem hvm)
        omega
      · exact List.Nodup.cons (hbg.2.not_mem_erase) (hbg.2.erase v)
  · -- miss: optional eviction, then push at the front
    rename_i hv
    intro b hb
    rcases List.mem_or_eq_of_mem_set hb with hmem | rfl
    · exact h b hmem
    · by_cases hfull : t.ways ≤ (t.buckets.getD (t.index v) []).length
      · rw [if_pos hfull]
        constructor
        · simp only [List.length_cons, List.length_dropLast]
          omega
        · refine List.Nodup.cons ?_ ((List.dropLast_sublist _).nodup hbg.2)
          intro hmem
          exact hv (List.mem_of_mem_dropLast hmem)
      · rw [if_neg hfull]
        exact ⟨by simp only [List.length_cons]; omega, List.Nodup.cons hv hbg.2⟩

/-- Any access sequence preserves the structural invariant. -/
theorem accessList_preserves_good (vs : List Nat) :
    ∀ (t : SetAssociativeTLB), 1 ≤ t.ways → GoodBuckets t →
      GoodBuckets (t.accessList vs).2 := by
  induction vs with
  | nil => intro t _ h; exact h
  | cons v vs ih =>
    intro t hw h
    rw [SetAssociativeTLB.accessList]
    dsimp only
    exact ih (t.access v).2 ((access_fields t v).1 ▸ hw) (access_preserves_good t v hw h)

/-- The modelled `randint lo hi` always lands inside `[lo, hi]`. -/
theorem randint_bounds (lo hi : Int) (h : lo ≤ hi) (g : PyRand) :
    lo ≤ (randint lo hi g).1 ∧ (randint lo hi g).1 ≤ hi := by
  have hs : ((hi - lo + 1).toNat : Int) = hi - lo + 1 := Int.toNat_of_nonneg (by omega)
  have hr : (g.state % rngMod) % (hi - lo + 1).toNat < (hi - lo + 1).toNat :=
    Nat.mod_lt _ (by omega)
  have hr' : (((g.state % rngMod) % (hi - lo + 1).toNat : Nat) : Int) < hi - lo + 1 := by
    rw [← hs]; exact_mod_cast hr
  simp only [randint, nextRaw]
  constructor
  · have hz : (0 : Int) ≤ (((g.state % rngMod) % (hi - lo + 1).toNat : Nat) : Int) :=
      Int.ofNat_nonneg _
    omega
  · omega

/-- The generator emits exactly `n` references. -/
theorem generateTraceAux_length (vpages page_size : Nat) (lp : ℚ) (w : Nat) :
    ∀ (n current : Nat) (g : PyRand),
      (generateTraceAux vpages page_size lp w n current g).length = n := by
  intro n
  induction n with
  | zero => intros; rfl
  | succ n ih =>
    intro current g
    rw [generateTraceAux]
    split
    split <;> simp [ih]

/-- The trace has exactly `n_accesses` entries. -/
theorem generateTrace_length (g0 : PyRand) (n vpages page_size : Nat)
    (lp : ℚ) (w seed : Nat) :
    (generateTrace g0 n vpages page_size lp w seed).length = n := by
  rw [generateTrace]
  exact generateTraceAux_length vpages page_size lp w n _ _

/-- The hit counter, total time, and final TLB of the loop do not
depend on the progress flag or the progress accumulator. -/
theorem simLoop_drop_progress (tt tm tp acc st : Nat) :
    ∀ (trace : List (Nat × Nat)) (tlb : SetAssociativeTLB)
      (hits total i : Nat) (out1 out2 : List (Nat × Nat)),
      ((simLoop tt tm tp true acc st trace tlb hits total i out1).1,
        (simLoop tt tm tp true acc st trace tlb hits total i out1).2.1,
        (simLoop tt tm tp true acc st trace tlb hits total i out1).2.2.1) =
      ((simLoop tt tm tp false acc st trace tlb hits total i out2).1,
        (simLoop tt tm tp false acc st trace tlb hits total i out2).2.1,
        (simLoop tt tm tp false acc st trace tlb hits total i out2).2.2.1) := by
  intro trace
  induction trace with
  | nil => intros; rfl
  | cons hd rest ih =>
    intro tlb hits total i out1 out2
    obtain ⟨vpn, off⟩ := hd
    simp only [simLoop]
    exact ih _ _ _ _ _ _

/-- Loop accounting: some `k ≤ |trace|` accesses hit; each hit costs
`t_tlb + t_mem` and each miss `t_tlb + t_pagewalk + t_mem`. -/
theorem simLoop_accounting (tt tm tp : Nat) (sp : Bool) (acc st : Nat) :
    ∀ (trace : List (Nat × Nat)) (tlb : SetAssociativeTLB)
      (hits total i : Nat) (out : List (Nat × Nat)),
      ∃ k, k ≤ trace.length ∧
        (simLoop tt tm tp sp acc st trace tlb hits total i out).1 = hits + k ∧
        (simLoop tt tm tp sp acc st trace tlb hits total i out).2.1 =
          total + k * (tt + tm) + (trace.length - k) * (tt + tp + tm) := by
  intro trace
  induction trace with
  | nil =>
    intro tlb hits total i out
    exact ⟨0, by simp [simLoop]⟩
  | cons hd rest ih =>
    intro tlb hits total i out
    obtain ⟨vpn, off⟩ := hd
    simp only [simLoop]
    by_cases hhit : (tlb.access vpn).1 = true
    · simp only [hhit, if_true]
      obtain ⟨k, hk, h1, h2⟩ := ih (tlb.access vpn).2 (hits + 1) (total + (tt + tm)) (i + 1)
        (if (sp && decide (i % st = 0 ∨ i = acc)) = true then
          out ++ [(i * 100 / acc, 40 * (i * 100 / acc) / 100)] else out)
      refine ⟨k + 1, by simp; omega, ?_, ?_⟩
      · rw [h1]; omega
      · rw [h2]
        have e2 : rest.length + 1 - (k + 1) = rest.length - k := by omega
        simp only [List.length_cons, e2]
        ring
    · rw [Bool.not_eq_true] at hhit
      simp only [hhit, Bool.false_eq_true, if_false]
      obtain ⟨k, hk, h1, h2⟩ := ih (tlb.access vpn).2 hits (total + (tt + tp + tm)) (i + 1)
        (if (sp && decide (i % st = 0 ∨ i = acc)) = true then
          out ++ [(i * 100 / acc, 40 * (i * 100 / acc) / 100)] else out)
      refine ⟨k, by simp; omega, h1, ?_⟩
      rw [h2]
      have e2 : rest.length + 1 - k = (rest.length - k) + 1 := by omega
      simp only [List.length_cons, e2]
      ring

/-- Unfolding equation of `accessList` on a cons cell, in projection
form. -/
theorem accessList_cons (t : SetAssociativeTLB) (v : Nat) (vs : List Nat) :
    t.accessList (v :: vs) =
      ((t.access v).1 :: ((t.access v).2.accessList vs).1,
        ((t.access v).2.accessList vs).2) := rfl

/-- The loop's hit counter equals the number of true flags collected
by `accessList` over the VPNs of the trace. -/
theorem simLoop_hits_eq_count (tt tm tp : Nat) (sp : Bool) (acc st : Nat) :
    ∀ (trace : List (Nat × Nat)) (tlb : SetAssociativeTLB)
      (hits total i : Nat) (out : List (Nat × Nat)),
      (simLoop tt tm tp sp acc st trace tlb hits total i out).1 =
        hits + List.count true (tlb.accessList (trace.map Prod.fst)).1 := by
  intro trace
  induction trace with
  | nil => intros; simp [simLoop, SetAssociativeTLB.accessList]
  | cons hd rest ih =>
    intro tlb hits total i out
    obtain ⟨vpn, off⟩ := hd
    rw [List.map_cons, accessList_cons]
    simp only [simLoop]
    by_cases hhit : (tlb.access vpn).1 = true
    · simp only [hhit, if_true]
      rw [ih]
      rw [List.count_cons]
      simp
      omega
    · rw [Bool.not_eq_true] at hhit
      simp only [hhit, Bool.false_eq_true, if_false]
      rw [ih]
      rw [List.count_cons]
      simp

/-- LRU inclusion, per set: the capacity-`w` bucket after any access
is the `w`-front of the unbounded recency stack, both on a hit
(reorder) and on a miss (optional eviction plus insert). -/
theorem take_mruPush (w : Nat) (hw : 1 ≤ w) (M : List Nat) (v : Nat) :
    (mruPush M v).take w =
      if v ∈ M.take w then v :: (M.take w).erase v
      else v :: (if w ≤ (M.take w).length then (M.take w).dropLast else M.take w) := by
  have hTD : M.take w ++ M.drop w = M := List.take_append_drop w M
  have hlen : (M.take w).length ≤ w := by
    rw [List.length_take]; omega
  have hcons : (v :: M.erase v).take w = v :: (M.erase v).take (w - 1) := by
    cases w with
    | zero => omega
    | succ w' => simp [List.take_succ_cons]
  rw [mruPush, hcons]
  by_cases hv : v ∈ M.take w
  · rw [if_pos hv]
    congr 1
    have hM : M.erase v = (M.take w).erase v ++ M.drop w := by
      conv_lhs => rw [← hTD]
      exact List.erase_append_left _ hv
    have hle : ((M.take w).erase v).length = (M.take w).length - 1 :=
      List.length_erase_of_mem hv
    have hpos : 1 ≤ (M.take w).length := List.length_pos.mpr (List.ne_nil_of_mem hv)
    rw [hM, List.take_append_eq_append_take]
    by_cases hfull : (M.take w).length = w
    · have h1 : ((M.take w).erase v).take (w - 1) = (M.take w).erase v :=
        List.take_of_length_le (by omega)
      have h2 : w - 1 - ((M.take w).erase v).length = 0 := by omega
      rw [h1, h2]
      simp
    · have hMlen : M.length < w := by
        rw [List.length_take] at hfull
        omega
      have hdrop : M.drop w = [] := List.drop_eq_nil_of_le (by omega)
      have h1 : ((M.take w).erase v).take (w - 1) = (M.take w).erase v :=
        List.take_of_length_le (by omega)
      rw [hdrop, h1]
      simp
  · rw [if_neg hv]
    congr 1
    by_cases hfull : w ≤ (M.take w).length
    · rw [if_pos hfull]
      have hlw : (M.take w).length = w := by omega
      have hdl : (M.take w).dropLast = M.take (w - 1) := by
        rw [List.dropLast_eq_take, hlw, List.take_take]
        congr 1
        omega
      have herase_take : (M.erase v).take (w - 1) = M.take (w - 1) := by
        by_cases hvM : v ∈ M
        · have hM : M.erase v = M.take w ++ (M.drop w).erase v := by
            conv_lhs => rw [← hTD]
            exact List.erase_append_right _ hv
          rw [hM, List.take_append_eq_append_take]
          have h2 : w - 1 - (M.take w).length = 0 := by omega
          rw [h2, List.take_take]
          simp only [List.take_zero, List.append_nil]
          congr 1
          omega
        · rw [List.erase_of_not_mem hvM]
      rw [hdl, herase_take]
    · rw [if_neg hfull]
      push_neg at hfull
      have hMlen : M.length < w := by
        rw [List.length_take] at hfull
        omega
      have hMw : M.take w = M := List.take_of_length_le (by omega)
      rw [hMw] at hv ⊢
      rw [List.erase_of_not_mem hv]
      exact List.take_of_length_le (by omega)

/-- Reading a default-`[]` entry commutes with mapping `take w`. -/
theorem getD_map_take (w : Nat) (S : List (List Nat)) (i : Nat) :
    (S.map (List.take w)).getD i [] = (S.getD i []).take w := by
  rw [List.getD_eq_getElem?_getD, List.getD_eq_getElem?_getD, List.getElem?_map]
  cases S[i]? <;> simp

/-- One access on a TLB whose buckets are the `w`-fronts of recency
stacks hits exactly when the VPN is in the `w`-front of its stack,
and the new buckets are the `w`-fronts of the updated stacks. -/
theorem access_stack_step (w mask sets : Nat) (hw : 1 ≤ w) (S : List (List Nat)) (v : Nat) :
    ((⟨sets, w, S.map (List.take w), mask⟩ : SetAssociativeTLB).access v).1 =
      decide (v ∈ (S.getD (v &&& mask) []).take w) ∧
    ((⟨sets, w, S.map (List.take w), mask⟩ : SetAssociativeTLB).access v).2 =
      ⟨sets, w, (S.set (v &&& mask) (mruPush (S.getD (v &&& mask) []) v)).map (List.take w), mask⟩ := by
  have hb : (S.map (List.take w)).getD (v &&& mask) [] = (S.getD (v &&& mask) []).take w :=
    getD_map_take w S (v &&& mask)
  have htake := take_mruPush w hw (S.getD (v &&& mask) []) v
  rw [SetAssociativeTLB.access]
  dsimp only [SetAssociativeTLB.index]
  rw [hb]
  by_cases hv : v ∈ (S.getD (v &&& mask) []).take w
  · rw [if_pos hv]
    refine ⟨(decide_eq_true hv).symm, ?_⟩
    conv_rhs => rw [List.map_set]
    rw [htake, if_pos hv]
  · rw [if_neg hv]
    refine ⟨(decide_eq_false hv).symm, ?_⟩
    conv_rhs => rw [List.map_set]
    rw [htake, if_neg hv]

/-- The hit/miss flags of a run with capacity `w` are `hitFlags` over
the unbounded recency stacks. -/
theorem accessList_stack (w mask sets : Nat) (hw : 1 ≤ w) :
    ∀ (vs : List Nat) (S : List (List Nat)),
      ((⟨sets, w, S.map (List.take w), mask⟩ : SetAssociativeTLB).accessList vs).1 =
        hitFlags w mask vs S := by
  intro vs
  induction vs with
  | nil => intro S; rfl
  | cons v vs ih =>
    intro S
    rw [accessList_cons, hitFlags]
    obtain ⟨h1, h2⟩ := access_stack_step w mask sets hw S v
    rw [h1, h2]
    dsimp only
    rw [ih (S.set (v &&& mask) (mruPush (S.getD (v &&& mask) []) v))]

/-- A hit at capacity `w1` is a hit at any capacity `w2 ≥ w1`, so the
hit count never decreases with associativity. -/
theorem hitFlags_mono (mask w1 w2 : Nat) (hw : w1 ≤ w2) :
    ∀ (vs : List Nat) (S : List (List Nat)),
      List.count true (hitFlags w1 mask vs S) ≤ List.count true (hitFlags w2 mask vs S) := by
  intro vs
  induction vs with
  | nil => intro S; exact le_refl _
  | cons v vs ih =>
    intro S
    rw [hitFlags, hitFlags, List.count_cons, List.count_cons]
    have himp : v ∈ (S.getD (v &&& mask) []).take w1 → v ∈ (S.getD (v &&& mask) []).take w2 := by
      intro hm
      have he : (S.getD (v &&& mask) []).take w1 =
          ((S.getD (v &&& mask) []).take w2).take w1 := by
        rw [List.take_take]
        congr 1
        omega
      rw [he] at hm
      exact List.mem_of_mem_take hm
    have htail := ih (S.set (v &&& mask) (mruPush (S.getD (v &&& mask) []) v))
    by_cases hm1 : v ∈ (S.getD (v &&& mask) []).take w1
    · have hm2 := himp hm1
      rw [decide_eq_true hm1, decide_eq_true hm2]
      omega
    · rw [decide_eq_false hm1]
      by_cases hm2 : v ∈ (S.getD (v &&& mask) []).take w2
      · rw [decide_eq_true hm2]
        have hle : (if (false == true) = true then 1 else 0) ≤
            (if (true == true) = true then 1 else 0) := by simp
        omega
      · rw [decide_eq_false hm2]
        omega

/-! ### Claim theorems -/

/-- C1: `access(vpn)` returns true iff `vpn` is in the set indexed by
`vpn & (sets - 1)` before the call; on a hit the entry is removed and
reinserted at the MRU front; on a miss with the set at capacity the
LRU back entry is evicted then `vpn` is pushed at the front, on a
miss below capacity `vpn` is simply pushed at the front, and the call
returns false; every other set is left unchanged. -/
theorem access_semantics (t : SetAssociativeTLB) (vpn idx : Nat) (b : List Nat)
    (hmask : t.mask = t.sets - 1)
    (hidx : idx = vpn &&& (t.sets - 1))
    (hb : b = t.buckets.getD idx []) :
    ((t.access vpn).1 = true ↔ vpn ∈ b)
    ∧ (vpn ∈ b →
        (t.access vpn).2.buckets = t.buckets.set idx (vpn :: b.erase vpn))
    ∧ (vpn ∉ b → t.ways ≤ b.length →
        (t.access vpn).1 = false ∧
        (t.access vpn).2.buckets = t.buckets.set idx (vpn :: b.dropLast))
    ∧ (vpn ∉ b → b.length < t.ways →
        (t.access vpn).1 = false ∧
        (t.access vpn).2.buckets = t.buckets.set idx (vpn :: b))
    ∧ (∀ j, j ≠ idx → (t.access vpn).2.buckets.getD j [] = t.buckets.getD j []) := by
  have hidx' : t.index vpn = idx := by
    rw [SetAssociativeTLB.index, hmask, hidx]
  have hset : ∀ x : List Nat, ∀ j, j ≠ idx →
      (t.buckets.set idx x).getD j [] = t.buckets.getD j [] := by
    intro x j hj
    rw [List.getD_eq_getElem?_getD, List.getD_eq_getElem?_getD,
      List.getElem?_set_ne (fun he => hj he.symm)]
  rw [SetAssociativeTLB.access]
  dsimp only
  rw [hidx', ← hb]
  by_cases hv : vpn ∈ b
  · rw [if_pos hv]
    refine ⟨by simp [hv], fun _ => rfl, fun hc => absurd hv hc, fun hc => absurd hv hc,
      fun j hj => hset _ j hj⟩
  · rw [if_neg hv]
    refine ⟨by simp [hv], fun hc => absurd hc hv, ?_, ?_, fun j hj => hset _ j hj⟩
    · intro _ hfull
      rw [if_pos hfull]
      exact ⟨rfl, rfl⟩
    · intro _ hlt
      rw [if_neg (by omega)]
      exact ⟨rfl, rfl⟩

/-- Witness for C1 at a concrete state: a TLB with two sets and
buckets `[[1], [3]]` hits on VPN 3. -/
theorem access_semantics_witness :
    ((⟨2, 2, [[1], [3]], 1⟩ : SetAssociativeTLB).access 3).1 = true :=
  (access_semantics ⟨2, 2, [[1], [3]], 1⟩ 3 1 [3] rfl (by decide) rfl).1.mpr
    (by decide)

/-- C2 (amended): in the locality branch (drawn fraction below
`locality_prob`) the emitted VPN is `(current + delta) mod vpages`
with `delta` in the inclusive range `[(-w).fdiv 2, w.fdiv 2]` - the
lower end is Python's floor division `-w // 2`, which is `-(w / 2)`
only for even `w` - and the locality center `current` is passed
unchanged to the rest of the trace. -/
theorem locality_step_delta_range (vpages page_size : Nat) (lp : ℚ)
    (w n current : Nat) (g : PyRand)
    (hloc : (randomFrac g).1 < lp) :
    ∃ delta : Int, ∃ off : Nat, ∃ g' : PyRand,
      Int.fdiv (-(w : Int)) 2 ≤ delta ∧ delta ≤ Int.fdiv (w : Int) 2 ∧
      generateTraceAux vpages page_size lp w (n + 1) current g =
        ((((current : Int) + delta) % (vpages : Int)).toNat, off) ::
          generateTraceAux vpages page_size lp w n current g' := by
  have hlohi : Int.fdiv (-(w : Int)) 2 ≤ Int.fdiv (w : Int) 2 := by
    rw [Int.fdiv_eq_ediv _ (by omega), Int.fdiv_eq_ediv _ (by omega)]
    omega
  obtain ⟨hb1, hb2⟩ := randint_bounds (Int.fdiv (-(w : Int)) 2) (Int.fdiv (w : Int) 2)
    hlohi (randomFrac g).2
  refine ⟨(randint (Int.fdiv (-(w : Int)) 2) (Int.fdiv (w : Int) 2) (randomFrac g).2).1,
    (randrange page_size (randint (Int.fdiv (-(w : Int)) 2) (Int.fdiv (w : Int) 2) (randomFrac g).2).2).1,
    (randrange page_size (randint (Int.fdiv (-(w : Int)) 2) (Int.fdiv (w : Int) 2) (randomFrac g).2).2).2,
    hb1, hb2, ?_⟩
  conv_lhs => rw [generateTraceAux]
  simp only [randomFrac, nextRaw] at hloc ⊢
  rw [if_pos hloc]

/-- Witness for C2 (amended) at `locality_window = 1`,
`locality_prob = 1`, generator state 0. -/
theorem locality_step_delta_range_witness :
    (randomFrac ⟨0⟩).1 < 1 ∧
      (∃ delta : Int, ∃ off : Nat, ∃ g' : PyRand,
        Int.fdiv (-((1 : Nat) : Int)) 2 ≤ delta ∧ delta ≤ Int.fdiv ((1 : Nat) : Int) 2 ∧
        generateTraceAux 8192 4096 1 1 (0 + 1) 5 ⟨0⟩ =
          (((((5 : Nat) : Int) + delta) % (((8192 : Nat)) : Int)).toNat, off) ::
            generateTraceAux 8192 4096 1 1 0 5 g') := by
  have h : (randomFrac ⟨0⟩).1 < 1 := by
    with_unfolding_all decide
  exact ⟨h, locality_step_delta_range 8192 4096 1 1 0 5 ⟨0⟩ h⟩

/-- C2 (counterexample): with `locality_window = 1` and
`locality_prob = 1` every step takes the locality branch and the
center is never updated, yet a run from seed 0 emits two different
VPNs - so locality-branch accesses are not always exactly the current
center: Python floor division makes the delta range `[-1, 0]`, not
`[0, 0]`. -/
theorem locality_window_one_counterexample :
    (generateTrace ⟨0⟩ 2 8192 4096 1 1 0).map Prod.fst = [4153, 4152] ∧
      (4153 : Nat) ≠ 4152 := by
  constructor
  · with_unfolding_all decide
  · decide

/-- C3: with one trivial set and one way, the access sequence
`[5, 7, 5]` is three misses: 7 evicts 5, so the final access to 5
misses again. -/
theorem trivial_tlb_five_seven_five :
    (SetAssociativeTLB.mk? 1 1).map (fun t => (t.accessList [5, 7, 5]).1) =
      Except.ok [false, false, false] := by
  rfl

/-- C4: construction fails with an error exactly when `sets` is zero,
`ways` is zero, or `sets` is not a power of two; it succeeds exactly
on valid parameters, and then stores them unclamped with `sets` empty
sets and the mask `sets - 1`. -/
theorem mk_validates_configuration (sets ways : Nat) :
    ((∃ t, SetAssociativeTLB.mk? sets ways = Except.ok t) ↔
      (0 < sets ∧ 0 < ways ∧ ∃ k, sets = 2 ^ k))
    ∧ ((∃ e, SetAssociativeTLB.mk? sets ways = Except.error e) ↔
      (sets = 0 ∨ ways = 0 ∨ ¬ ∃ k, sets = 2 ^ k))
    ∧ (∀ t, SetAssociativeTLB.mk? sets ways = Except.ok t →
        t.sets = sets ∧ t.ways = ways ∧ t.mask = sets - 1 ∧
          t.buckets = List.replicate sets []) := by
  refine ⟨⟨?_, ?_⟩, ⟨?_, ?_⟩, ?_⟩
  · rintro ⟨t, ht⟩
    obtain ⟨hs, hw, hbit, -⟩ := mk_ok_inv sets ways t ht
    exact ⟨hs, hw, (and_pred_eq_zero_iff_pow2 sets hs).mp hbit⟩
  · rintro ⟨hs, hw, hpow⟩
    exact ⟨_, mk_ok_of_valid sets ways hs hw
      ((and_pred_eq_zero_iff_pow2 sets hs).mpr hpow)⟩
  · rintro ⟨e, he⟩
    by_contra hcon
    push_neg at hcon
    obtain ⟨hs, hw, hpow⟩ := hcon
    have hok := mk_ok_of_valid sets ways (by omega) (by omega)
      ((and_pred_eq_zero_iff_pow2 sets (by omega)).mpr hpow)
    rw [hok] at he
    cases he
  · intro hinv
    rcases hmk : SetAssociativeTLB.mk? sets ways with e | t
    · exact ⟨e, rfl⟩
    · exfalso
      obtain ⟨hs, hw, hbit, -⟩ := mk_ok_inv sets ways t hmk
      rcases hinv with h | h | h
      · omega
      · omega
      · exact absurd ((and_pred_eq_zero_iff_pow2 sets hs).mp hbit) h
  · intro t ht
    obtain ⟨-, -, -, rfl⟩ := mk_ok_inv sets ways t ht
    exact ⟨rfl, rfl, rfl, rfl⟩

/-- Witness for C4 at `sets = 4`, `ways = 2`: construction succeeds
and stores the parameters unclamped. -/
theorem mk_validates_configuration_witness :
    ((∃ t, SetAssociativeTLB.mk? 4 2 = Except.ok t) ↔
      (0 < 4 ∧ 0 < 2 ∧ ∃ k, (4 : Nat) = 2 ^ k))
    ∧ ((∃ e, SetAssociativeTLB.mk? 4 2 = Except.error e) ↔
      ((4 : Nat) = 0 ∨ (2 : Nat) = 0 ∨ ¬ ∃ k, (4 : Nat) = 2 ^ k))
    ∧ (∀ t, SetAssociativeTLB.mk? 4 2 = Except.ok t →
        t.sets = 4 ∧ t.ways = 2 ∧ t.mask = 4 - 1 ∧
          t.buckets = List.replicate 4 []) :=
  mk_validates_configuration 4 2

/-- C5: from any validly constructed TLB, after any access sequence
every set holds at most `ways` entries (hence between 0 and `ways`)
and no VPN occurs twice within a set; the invariant also holds of the
freshly constructed state. -/
theorem invariant_bounded_nodup (sets ways : Nat) (t₀ : SetAssociativeTLB)
    (h : SetAssociativeTLB.mk? sets ways = Except.ok t₀) (vs : List Nat) :
    GoodBuckets t₀ ∧ GoodBuckets (t₀.accessList vs).2 := by
  obtain ⟨hs, hw, hbit, rfl⟩ := mk_ok_inv sets ways t₀ h
  have hgood : GoodBuckets ⟨sets, ways, List.replicate sets [], sets - 1⟩ := by
    intro b hb
    rw [List.eq_of_mem_replicate hb]
    exact ⟨by simp, List.nodup_nil⟩
  exact ⟨hgood, accessList_preserves_good vs _ hw hgood⟩

/-- Witness for C5: the valid configuration `sets = 2`, `ways = 2`
run on the access sequence `[5, 7, 5, 6]`. -/
theorem invariant_bounded_nodup_witness :
    GoodBuckets ⟨2, 2, [[], []], 1⟩ ∧
      GoodBuckets ((⟨2, 2, [[], []], 1⟩ : SetAssociativeTLB).accessList [5, 7, 5, 6]).2 :=
  invariant_bounded_nodup 2 2 ⟨2, 2, [[], []], 1⟩ rfl [5, 7, 5, 6]

/-- C6: the EMAT of any successful run with at least one access lies
between `t_tlb + t_mem` (all hits) and `t_tlb + t_pagewalk + t_mem`
(all misses), both ends included. -/
theorem emat_bounds (g : PyRand) (p : SimParams) (sp : Bool) (r : SimResult)
    (out : List (Nat × Nat)) (h : run_tlb_sim g p sp = Except.ok (r, out))
    (ha : 1 ≤ r.accesses) :
    (((p.t_tlb + p.t_mem : Nat) : ℚ) ≤ r.EMAT) ∧
      (r.EMAT ≤ ((p.t_tlb + p.t_pagewalk + p.t_mem : Nat) : ℚ)) := by
  rw [run_tlb_sim] at h
  rcases hmk : SetAssociativeTLB.mk? p.sets p.ways with e | tlb <;> rw [hmk] at h
  · cases h
  · obtain ⟨k, hk, h1, h2⟩ := simLoop_accounting p.t_tlb p.t_mem p.t_pagewalk sp
      (generateTrace g p.n_accesses p.vpages p.page_size p.locality_prob p.locality_window p.seed).length
      (max 1 ((generateTrace g p.n_accesses p.vpages p.page_size p.locality_prob p.locality_window p.seed).length / 50))
      (generateTrace g p.n_accesses p.vpages p.page_size p.locality_prob p.locality_window p.seed)
      tlb 0 0 1 []
    dsimp only at h
    rw [Except.ok.injEq, Prod.mk.injEq] at h
    obtain ⟨hr, -⟩ := h
    subst hr
    dsimp only at ha ⊢
    rw [h2]
    have hab : p.t_tlb + p.t_mem ≤ p.t_tlb + p.t_pagewalk + p.t_mem := by omega
    have hlow : (generateTrace g p.n_accesses p.vpages p.page_size p.locality_prob p.locality_window p.seed).length * (p.t_tlb + p.t_mem) ≤
        0 + k * (p.t_tlb + p.t_mem) +
          ((generateTrace g p.n_accesses p.vpages p.page_size p.locality_prob p.locality_window p.seed).length - k) * (p.t_tlb + p.t_pagewalk + p.t_mem) := by
      have h3 : ((generateTrace g p.n_accesses p.vpages p.page_size p.locality_prob p.locality_window p.seed).length - k) * (p.t_tlb + p.t_mem) ≤
          ((generateTrace g p.n_accesses p.vpages p.page_size p.locality_prob p.locality_window p.seed).length - k) * (p.t_tlb + p.t_pagewalk + p.t_mem) :=
        Nat.mul_le_mul_left _ hab
      have h4 : (generateTrace g p.n_accesses p.vpages p.page_size p.locality_prob p.locality_window p.seed).length * (p.t_tlb + p.t_mem) =
          k * (p.t_tlb + p.t_mem) +
            ((generateTrace g p.n_accesses p.vpages p.page_size p.locality_prob p.locality_window p.seed).length - k) * (p.t_tlb + p.t_mem) := by
        rw [← Nat.add_mul]
        congr 1
        omega
      omega
    have hhigh : 0 + k * (p.t_tlb + p.t_mem) +
        ((generateTrace g p.n_accesses p.vpages p.page_size p.locality_prob p.locality_window p.seed).length - k) * (p.t_tlb + p.t_pagewalk + p.t_mem) ≤
        (generateTrace g p.n_accesses p.vpages p.page_size p.locality_prob p.locality_window p.seed).length * (p.t_tlb + p.t_pagewalk + p.t_mem) := by
      have h3 : k * (p.t_tlb + p.t_mem) ≤ k * (p.t_tlb + p.t_pagewalk + p.t_mem) :=
        Nat.mul_le_mul_left _ hab
      have h4 : (generateTrace g p.n_accesses p.vpages p.page_size p.locality_prob p.locality_window p.seed).length * (p.t_tlb + p.t_pagewalk + p.t_mem) =
          k * (p.t_tlb + p.t_pagewalk + p.t_mem) +
            ((generateTrace g p.n_accesses p.vpages p.page_size p.locality_prob p.locality_window p.seed).length - k) * (p.t_tlb + p.t_pagewalk + p.t_mem) := by
        rw [← Nat.add_mul]
        congr 1
        omega
      omega
    have hnpos : (0 : ℚ) < ((generateTrace g p.n_accesses p.vpages p.page_size p.locality_prob p.locality_window p.seed).length : ℚ) := by
      exact_mod_cast ha
    constructor
    · rw [le_div_iff₀ hnpos]
      calc ((p.t_tlb + p.t_mem : Nat) : ℚ) *
            ((generateTrace g p.n_accesses p.vpages p.page_size p.locality_prob p.locality_window p.seed).length : ℚ)
          = (((generateTrace g p.n_accesses p.vpages p.page_size p.locality_prob p.locality_window p.seed).length * (p.t_tlb + p.t_mem) : Nat) : ℚ) := by
            push_cast; ring
        _ ≤ _ := by exact_mod_cast hlow
    · rw [div_le_iff₀ hnpos]
      calc ((0 + k * (p.t_tlb + p.t_mem) +
            ((generateTrace g p.n_accesses p.vpages p.page_size p.locality_prob p.locality_window p.seed).length - k) * (p.t_tlb + p.t_pagewalk + p.t_mem) : Nat) : ℚ)
          ≤ (((generateTrace g p.n_accesses p.vpages p.page_size p.locality_prob p.locality_window p.seed).length * (p.t_tlb + p.t_pagewalk + p.t_mem) : Nat) : ℚ) := by
            exact_mod_cast hhigh
        _ = _ := by push_cast; ring

/-- Witness for C6: the one-access run at `sets = 1`, `ways = 1`
misses once and its EMAT 401 sits inside `[101, 401]`. -/
theorem emat_bounds_witness :
    (((SimParams.t_tlb ⟨1, 1, 2, 2, 1, 0, 1, 1, 100, 300, 0⟩ +
        SimParams.t_mem ⟨1, 1, 2, 2, 1, 0, 1, 1, 100, 300, 0⟩ : Nat) : ℚ) ≤
      SimResult.EMAT ⟨1, 0, 1, 0, 401, ⟨1, 1, 2, 2, 1, 0, 1, 1, 100, 300, 0⟩⟩) ∧
      (SimResult.EMAT ⟨1, 0, 1, 0, 401, ⟨1, 1, 2, 2, 1, 0, 1, 1, 100, 300, 0⟩⟩ ≤
        ((SimParams.t_tlb ⟨1, 1, 2, 2, 1, 0, 1, 1, 100, 300, 0⟩ +
          SimParams.t_pagewalk ⟨1, 1, 2, 2, 1, 0, 1, 1, 100, 300, 0⟩ +
          SimParams.t_mem ⟨1, 1, 2, 2, 1, 0, 1, 1, 100, 300, 0⟩ : Nat) : ℚ)) :=
  emat_bounds ⟨0⟩ ⟨1, 1, 2, 2, 1, 0, 1, 1, 100, 300, 0⟩ false
    ⟨1, 0, 1, 0, 401, ⟨1, 1, 2, 2, 1, 0, 1, 1, 100, 300, 0⟩⟩ []
    (by with_unfolding_all rfl) (by decide)

/-- C7: for a fixed seed and fixed parameters, the trace generator
and the driver are independent of the incoming global generator state
(the only mutable context), because `generate_trace` reseeds at
entry; hence repeated invocations produce identical traces and
identical result records. -/
theorem determinism_fixed_seed (g1 g2 : PyRand) (n vpages page_size : Nat)
    (lp : ℚ) (w seed : Nat) (p : SimParams) (sp : Bool) :
    generateTrace g1 n vpages page_size lp w seed =
      generateTrace g2 n vpages page_size lp w seed
    ∧ run_tlb_sim g1 p sp = run_tlb_sim g2 p sp :=
  ⟨rfl, rfl⟩

/-- C8: the progress display changes no field of the returned result
record: running with the flag on and off yields the same `Result`
(only the emitted progress events differ). -/
theorem progress_display_pure (g : PyRand) (p : SimParams) :
    (run_tlb_sim g p true).map Prod.fst = (run_tlb_sim g p false).map Prod.fst := by
  rw [run_tlb_sim, run_tlb_sim]
  rcases hmk : SetAssociativeTLB.mk? p.sets p.ways with e | tlb
  · rfl
  · dsimp only
    have h := simLoop_drop_progress p.t_tlb p.t_mem p.t_pagewalk
      (generateTrace g p.n_accesses p.vpages p.page_size p.locality_prob p.locality_window p.seed).length
      (max 1 ((generateTrace g p.n_accesses p.vpages p.page_size p.locality_prob p.locality_window p.seed).length / 50))
      (generateTrace g p.n_accesses p.vpages p.page_size p.locality_prob p.locality_window p.seed)
      tlb 0 0 1 [] []
    rw [Prod.mk.injEq, Prod.mk.injEq] at h
    obtain ⟨e1, e2, -⟩ := h
    rw [e1, e2]
    rfl

/-- C9: with everything but the associativity fixed (same seed, same
sets, same trace), raising `ways` never lowers the hit rate: per-set
LRU has the stack inclusion property, so every hit of the smaller
configuration is a hit of the larger one. -/
theorem ways_monotone_hit_rate (g : PyRand) (p : SimParams) (w1 w2 : Nat)
    (sp1 sp2 : Bool) (h1 : 1 ≤ w1) (hw : w1 ≤ w2) :
    hitRateOf (run_tlb_sim g { p with ways := w1 } sp1) ≤
      hitRateOf (run_tlb_sim g { p with ways := w2 } sp2) := by
  by_cases hval : 0 < p.sets ∧ p.sets &&& (p.sets - 1) = 0
  · have hmk : ∀ w : Nat, 1 ≤ w → SetAssociativeTLB.mk? p.sets w =
        Except.ok ⟨p.sets, w, List.replicate p.sets [], p.sets - 1⟩ :=
      fun w hw' => mk_ok_of_valid p.sets w hval.1 (by omega) hval.2
    simp only [run_tlb_sim, hmk w1 h1, hmk w2 (h1.trans hw)]
    dsimp only [hitRateOf]
    have hrep : ∀ w : Nat, List.replicate p.sets ([] : List Nat) =
        (List.replicate p.sets ([] : List Nat)).map (List.take w) := by
      intro w
      rw [List.map_replicate, List.take_nil]
    have hcount : ∀ (w : Nat), 1 ≤ w → ∀ (sp : Bool),
        (simLoop p.t_tlb p.t_mem p.t_pagewalk sp
          (generateTrace g p.n_accesses p.vpages p.page_size p.locality_prob p.locality_window p.seed).length
          (max 1 ((generateTrace g p.n_accesses p.vpages p.page_size p.locality_prob p.locality_window p.seed).length / 50))
          (generateTrace g p.n_accesses p.vpages p.page_size p.locality_prob p.locality_window p.seed)
          ⟨p.sets, w, List.replicate p.sets [], p.sets - 1⟩ 0 0 1 []).1 =
        List.count true (hitFlags w (p.sets - 1)
          ((generateTrace g p.n_accesses p.vpages p.page_size p.locality_prob p.locality_window p.seed).map Prod.fst)
          (List.replicate p.sets [])) := by
      intro w hw' sp
      rw [simLoop_hits_eq_count]
      rw [show (⟨p.sets, w, List.replicate p.sets [], p.sets - 1⟩ : SetAssociativeTLB) =
        ⟨p.sets, w, (List.replicate p.sets []).map (List.take w), p.sets - 1⟩ from by rw [← hrep]]
      rw [accessList_stack w (p.sets - 1) p.sets hw']
      omega
    rw [hcount w1 h1 sp1, hcount w2 (h1.trans hw) sp2]
    have hmono := hitFlags_mono (p.sets - 1) w1 w2 hw
      ((generateTrace g p.n_accesses p.vpages p.page_size p.locality_prob p.locality_window p.seed).map Prod.fst)
      (List.replicate p.sets [])
    rcases Nat.eq_zero_or_pos (generateTrace g p.n_accesses p.vpages p.page_size p.locality_prob p.locality_window p.seed).length with hn | hn
    · rw [hn]
      norm_num
    · have hnq : (0 : ℚ) < ((generateTrace g p.n_accesses p.vpages p.page_size p.locality_prob p.locality_window p.seed).length : ℚ) := by
        exact_mod_cast hn
      rw [div_le_div_iff_of_pos_right hnq]
      exact_mod_cast hmono
  · have hmk : ∀ w : Nat, ∃ e, SetAssociativeTLB.mk? p.sets w = Except.error e := by
      intro w
      rw [SetAssociativeTLB.mk?]
      by_cases hpos : 0 < p.sets ∧ 0 < w
      · rw [if_pos hpos]
        dsimp only
        rw [if_neg (by omega)]
        exact ⟨_, rfl⟩
      · rw [if_neg hpos]
        exact ⟨_, rfl⟩
    obtain ⟨e1, he1⟩ := hmk w1
    obtain ⟨e2, he2⟩ := hmk w2
    simp only [run_tlb_sim, he1, he2]
    dsimp only [hitRateOf]
    exact le_refl 0

/-- Witness for C9: a three-access run on two sets, comparing one way
against two ways. -/
theorem ways_monotone_hit_rate_witness :
    (1 ≤ 1 ∧ 1 ≤ 2) ∧
      hitRateOf (run_tlb_sim ⟨0⟩ ⟨2, 1, 4, 4, 3, 1/2, 2, 1, 100, 300, 0⟩ false) ≤
        hitRateOf (run_tlb_sim ⟨0⟩ ⟨2, 2, 4, 4, 3, 1/2, 2, 1, 100, 300, 0⟩ false) :=
  ⟨⟨le_refl 1, by omega⟩,
    ways_monotone_hit_rate ⟨0⟩ ⟨2, 5, 4, 4, 3, 1/2, 2, 1, 100, 300, 0⟩ 1 2 false false
      (le_refl 1) (by omega)⟩

/-- C10: every successful run conserves accesses
(`hits + misses = accesses`), reports as many accesses as the
generated trace has entries (`n_accesses`), and reports
`hit_rate = hits / accesses`. -/
theorem conservation_and_rate (g : PyRand) (p : SimParams) (sp : Bool)
    (r : SimResult) (out : List (Nat × Nat))
    (h : run_tlb_sim g p sp = Except.ok (r, out)) :
    r.hits + r.misses = r.accesses ∧ r.accesses = p.n_accesses ∧
      r.hit_rate = (r.hits : ℚ) / (r.accesses : ℚ) := by
  rw [run_tlb_sim] at h
  rcases hmk : SetAssociativeTLB.mk? p.sets p.ways with e | tlb <;> rw [hmk] at h
  · cases h
  · obtain ⟨k, hk, h1, h2⟩ := simLoop_accounting p.t_tlb p.t_mem p.t_pagewalk sp
      (generateTrace g p.n_accesses p.vpages p.page_size p.locality_prob p.locality_window p.seed).length
      (max 1 ((generateTrace g p.n_accesses p.vpages p.page_size p.locality_prob p.locality_window p.seed).length / 50))
      (generateTrace g p.n_accesses p.vpages p.page_size p.locality_prob p.locality_window p.seed)
      tlb 0 0 1 []
    dsimp only at h
    rw [Except.ok.injEq, Prod.mk.injEq] at h
    obtain ⟨hr, -⟩ := h
    subst hr
    refine ⟨?_, generateTrace_length g p.n_accesses p.vpages p.page_size p.locality_prob p.locality_window p.seed, rfl⟩
    dsimp only
    rw [h1]
    omega

/-- Witness for C10: the one-access run at `sets = 1`, `ways = 1`. -/
theorem conservation_and_rate_witness :
    SimResult.hits ⟨1, 0, 1, 0, 401, ⟨1, 1, 2, 2, 1, 0, 1, 1, 100, 300, 0⟩⟩ +
        SimResult.misses ⟨1, 0, 1, 0, 401, ⟨1, 1, 2, 2, 1, 0, 1, 1, 100, 300, 0⟩⟩ =
        SimResult.accesses ⟨1, 0, 1, 0, 401, ⟨1, 1, 2, 2, 1, 0, 1, 1, 100, 300, 0⟩⟩ ∧
      SimResult.accesses ⟨1, 0, 1, 0, 401, ⟨1, 1, 2, 2, 1, 0, 1, 1, 100, 300, 0⟩⟩ =
        SimParams.n_accesses ⟨1, 1, 2, 2, 1, 0, 1, 1, 100, 300, 0⟩ ∧
      SimResult.hit_rate ⟨1, 0, 1, 0, 401, ⟨1, 1, 2, 2, 1, 0, 1, 1, 100, 300, 0⟩⟩ =
        ((SimResult.hits ⟨1, 0, 1, 0, 401, ⟨1, 1, 2, 2, 1, 0, 1, 1, 100, 300, 0⟩⟩ : ℚ) /
          (SimResult.accesses ⟨1, 0, 1, 0, 401, ⟨1, 1, 2, 2, 1, 0, 1, 1, 100, 300, 0⟩⟩ : ℚ)) :=
  conservation_and_rate ⟨0⟩ ⟨1, 1, 2, 2, 1, 0, 1, 1, 100, 300, 0⟩ false
    ⟨1, 0, 1, 0, 401, ⟨1, 1, 2, 2, 1, 0, 1, 1, 100, 300, 0⟩⟩ []
    (by with_unfolding_all rfl)
